import Mathlib

set_option maxHeartbeats 1000000

namespace VoiceTranscriber

/-! Shallow embedding of the streaming transcript assembly engine of the
voice-to-text transcriber repository.  JavaScript strings are modelled as
`List Char`; all strings manipulated by the embedded functions are ASCII
(the cleaning step of the assembler strips every character above x7F), so
the ASCII restrictions of the character-level helpers below coincide with
the JavaScript behaviour on every value the code can produce. -/

/-- Whitespace test matching the JavaScript regular-expression class \s on
the ASCII range: space, tab, line feed, carriage return, vertical tab and
form feed. -/
def jsIsSpace (c : Char) : Bool :=
  c.toNat = 32 || c.toNat = 9 || c.toNat = 10 || c.toNat = 13 ||
  c.toNat = 11 || c.toNat = 12

/-- Membership in the character class x00-x7F: the cleaning step
incoming.replace removes exactly the characters with code above 127. -/
def isAscii (c : Char) : Bool := c.toNat ≤ 127

/-- JavaScript String.trim on ASCII strings: remove leading and trailing
whitespace. -/
def trimStr (s : List Char) : List Char :=
  ((s.dropWhile jsIsSpace).reverse.dropWhile jsIsSpace).reverse

/-- One left-to-right pass of the tokeniser; the first argument holds the
reversed word currently being read.  A whitespace character flushes that
word (when non-empty), any other character extends it. -/
def splitWordsAux (cur : List Char) : List Char → List (List Char)
  | [] => if cur = [] then [] else [cur.reverse]
  | c :: rest =>
    if jsIsSpace c then
      if cur = [] then splitWordsAux [] rest
      else cur.reverse :: splitWordsAux [] rest
    else splitWordsAux (c :: cur) rest

/-- Tokenisation used throughout the source: split(regex of one-or-more
whitespace) followed by filter(w.length greater than 0), i.e. the list of
maximal whitespace-free non-empty runs of the string. -/
def splitWords (s : List Char) : List (List Char) := splitWordsAux [] s

/-- Array.join with a single-space separator, as in words.join in the
source. -/
def joinSpace : List (List Char) → List Char
  | [] => []
  | [w] => w
  | w :: x :: ws => w ++ ' ' :: joinSpace (x :: ws)

/-- String.toLowerCase: on the ASCII strings handled by the assembler this
is exactly the core ASCII case mapping Char.toLower applied to every
character. -/
def lowerStr (s : List Char) : List Char := s.map Char.toLower

/-- The overlap-search loop of appendVerbatim: for i from the fuel down
to 1, compare the last i master words (Array.slice of minus i) with the
first i incoming words (Array.slice of 0 and i), each joined by single
spaces and lowercased; the first, hence longest, match wins.  In the
source the loop starts at maxOverlap, which never exceeds the number of
master words, so slice of minus i is the drop of length minus i. -/
def findOverlap (masterWords incomingWords : List (List Char)) : Nat → Option Nat
  | 0 => none
  | i + 1 =>
    if lowerStr (joinSpace (masterWords.drop (masterWords.length - (i + 1)))) =
       lowerStr (joinSpace (incomingWords.take (i + 1)))
    then some (i + 1)
    else findOverlap masterWords incomingWords i

/-- The merge algorithm of the transcript assembler, translated from the
source function appendVerbatim(master, incoming): guard against an empty
incoming string, strip the characters above x7F and trim, tokenise both
sides, adopt the incoming text when the master has no words, otherwise
search the bounded window (at most the last 8 master words) for the
longest case-insensitive suffix-prefix overlap; on a hit append only the
words after the overlap (returning the master unchanged when nothing
remains), on a miss append the whole cleaned incoming text. -/
def appendVerbatim (master incoming : List Char) : List Char :=
  if incoming = [] then master
  else
    let cleanedIncoming := trimStr (incoming.filter isAscii)
    if cleanedIncoming = [] then master
    else
      let masterWords := splitWords (trimStr master)
      let incomingWords := splitWords cleanedIncoming
      if masterWords = [] then cleanedIncoming
      else
        let maxOverlap := min (min masterWords.length incomingWords.length) 8
        match findOverlap masterWords incomingWords maxOverlap with
        | some overlapIndex =>
          let uniqueIncoming := joinSpace (incomingWords.drop overlapIndex)
          if uniqueIncoming = [] then master
          else trimStr (master ++ ' ' :: uniqueIncoming)
        | none => trimStr (master ++ ' ' :: cleanedIncoming)

/-- Folding a sequence of onDelta events into the master transcript,
starting from the empty transcript of a fresh session. -/
def runDeltas (deltas : List (List Char)) : List Char :=
  deltas.foldl appendVerbatim []

/-- The single hit test of the overlap-search loop at candidate length i:
the last i master words equal the first i incoming words when joined by
single spaces and lowercased. -/
def overlapHit (masterWords incomingWords : List (List Char)) (i : Nat) : Prop :=
  lowerStr (joinSpace (masterWords.drop (masterWords.length - i))) =
  lowerStr (joinSpace (incomingWords.take i))

instance (mw iw : List (List Char)) (i : Nat) : Decidable (overlapHit mw iw i) := by
  unfold overlapHit
  infer_instance

/-- Session status as rendered by the UI state object. -/
inductive Status
  | idle
  | connecting
  | listening
  | error
deriving DecidableEq

/-- The mutable state of one App instance that the verified operations
touch.  buffer is the live transcription ref of the variant under study
(masterTranscriptRef, activeTranscriptionRef, currentTranscriptionRef or
currentTurnText); history keeps only the snippet texts, because a
snippet's id (crypto.randomUUID) and timestamp (new Date) come from the
environment and carry no algorithmic content.  The audio, stream and
session refs released by cleanup are resource handles outside this
model. -/
structure AppState where
  buffer : List Char
  currentText : List Char
  history : List (List Char)
  isRecording : Bool
  status : Status
deriving DecidableEq

/-- saveToHistory of the master-log variant: trim the master transcript,
emit it as a snippet whenever it is non-empty (floor of length greater
than 0), and always clear the master ref and the live text. -/
def saveToHistory (s : AppState) : AppState :=
  let finalTranscript := trimStr s.buffer
  if finalTranscript.length > 0 then
    { s with
      history := s.history ++ [finalTranscript]
      currentText := []
      buffer := [] }
  else
    { s with currentText := [], buffer := [] }

/-- saveSnippet of the loudness-gated variant: same shape as saveToHistory
but with the stricter emission floor text.length greater than 3. -/
def saveSnippet (s : AppState) : AppState :=
  let text := trimStr s.buffer
  if text.length > 3 then
    { s with
      history := s.history ++ [text]
      currentText := []
      buffer := [] }
  else
    { s with currentText := [], buffer := [] }

/-- finalizeTurn of the plain-concatenation variant: same shape with the
emission floor text.length greater than 2. -/
def finalizeTurn (s : AppState) : AppState :=
  let text := trimStr s.buffer
  if text.length > 2 then
    { s with
      history := s.history ++ [text]
      currentText := []
      buffer := [] }
  else
    { s with currentText := [], buffer := [] }

/-- stopSession of the master-log variant: flush via saveToHistory, then
set isRecording false and status idle; the following cleanup only releases
resource handles outside this model. -/
def stopSession (s : AppState) : AppState :=
  let s1 := saveToHistory s
  { s1 with isRecording := false, status := Status.idle }

/-- The onerror callback of the master-log variant: record the error
status, then run the full stop path. -/
def onerrorHandler (s : AppState) : AppState :=
  stopSession { s with status := Status.error }

/-- The onmessage delta branch of the master-log variant: a truthy
(non-empty) transcription delta is merged into the master ref through
appendVerbatim, and the live text mirrors the master whenever it
changed. -/
def onDeltaEvent (s : AppState) (incoming : List Char) : AppState :=
  if incoming = [] then s
  else
    let updated := appendVerbatim s.buffer incoming
    if updated = s.buffer then s
    else { s with buffer := updated, currentText := updated }

/-- The turnComplete branch of the per-turn-snippet variant (part_000): a
truthy trimmed turn text is pushed to the history and both the turn ref
and the live text are cleared; otherwise nothing happens. -/
def turnCompleteHandler (s : AppState) : AppState :=
  if trimStr s.buffer = [] then s
  else
    { s with
      history := s.history ++ [trimStr s.buffer]
      currentText := []
      buffer := [] }

/-- The silence threshold of the loudness-gated variant; the source
floating-point literal 0.008 denotes this rational value. -/
def SILENCE_THRESHOLD : ℚ := 0.008

/-- Mean square of a frame: sum of the squared samples divided by the
frame length, exactly the quantity whose square root the audio callback
compares against the threshold (samples modelled as exact rationals). -/
def rmsSq (frame : List ℚ) : ℚ :=
  (frame.map (fun x => x * x)).sum / frame.length

/-- The forwarding decision of the onaudioprocess callback of the
loudness-gated variant: nothing is sent without an active session ref,
and otherwise the frame is sent exactly when rms, the square root of
rmsSq, strictly exceeds SILENCE_THRESHOLD.  Both quantities are
non-negative, so the strict square-root comparison of the source is
modelled computably by comparing squares; the bridging theorem below
restates it through Real.sqrt. -/
def forwardsFrame (sessionPresent : Bool) (frame : List ℚ) : Bool :=
  sessionPresent && decide (SILENCE_THRESHOLD ^ 2 < rmsSq frame)

/-! Character-level lemmas. -/

theorem toNat_ofNat_of_lt {n : Nat} (h : n < 55296) : (Char.ofNat n).toNat = n := by
  simp [Char.ofNat, dif_pos (Or.inl h : n < 55296 ∨ 57343 < n ∧ n < 1114112), Char.ofNatAux,
        Char.toNat, UInt32.toNat, BitVec.toNat_ofNatLt]

theorem jsIsSpace_eq_false_of_ge {c : Char} (h : 33 ≤ c.toNat) : jsIsSpace c = false := by
  unfold jsIsSpace
  simp
  omega

theorem jsIsSpace_toLower (c : Char) : jsIsSpace (Char.toLower c) = jsIsSpace c := by
  unfold Char.toLower
  by_cases h : c.toNat ≥ 65 ∧ c.toNat ≤ 90
  · rw [if_pos h, jsIsSpace_eq_false_of_ge, jsIsSpace_eq_false_of_ge]
    · omega
    · rw [toNat_ofNat_of_lt (by omega)]
      omega
  · rw [if_neg h]

theorem toLower_toLower (c : Char) : (Char.toLower c).toLower = Char.toLower c := by
  unfold Char.toLower
  by_cases h : c.toNat ≥ 65 ∧ c.toNat ≤ 90
  · rw [if_pos h]
    rw [if_neg (by rw [toNat_ofNat_of_lt (by omega)]; omega)]
  · rw [if_neg h, if_neg h]

theorem lowerStr_idem (s : List Char) : lowerStr (lowerStr s) = lowerStr s := by
  unfold lowerStr
  rw [List.map_map]
  exact List.map_congr_left fun c _ => toLower_toLower c

theorem lowerStr_append (a b : List Char) : lowerStr (a ++ b) = lowerStr a ++ lowerStr b :=
  List.map_append _ a b

theorem lowerStr_space : Char.toLower ' ' = ' ' := by decide

theorem lowerStr_eq_nil_iff (s : List Char) : lowerStr s = [] ↔ s = [] := by
  unfold lowerStr
  simp

theorem lowerStr_joinSpace (ws : List (List Char)) :
    lowerStr (joinSpace ws) = joinSpace (ws.map lowerStr) := by
  induction ws with
  | nil => rfl
  | cons w rest ih =>
    match rest with
    | [] => rfl
    | x :: rest' =>
      show lowerStr (w ++ ' ' :: joinSpace (x :: rest')) = lowerStr w ++ ' ' :: joinSpace ((x :: rest').map lowerStr)
      rw [lowerStr_append, ← ih]
      show _ ++ lowerStr (' ' :: joinSpace (x :: rest')) = _
      unfold lowerStr
      rw [List.map_cons, lowerStr_space]

theorem lowerStr_not_space {w : List Char} (hw : ∀ c ∈ w, jsIsSpace c = false) :
    ∀ c ∈ lowerStr w, jsIsSpace c = false := by
  intro c hc
  unfold lowerStr at hc
  obtain ⟨d, hd, rfl⟩ := List.mem_map.mp hc
  rw [jsIsSpace_toLower]
  exact hw d hd

/-! Tokeniser lemmas. -/

theorem splitWordsAux_nil (cur : List Char) :
    splitWordsAux cur [] = if cur = [] then [] else [cur.reverse] := rfl

theorem splitWordsAux_cons_space (cur : List Char) {c : Char} (rest : List Char)
    (hc : jsIsSpace c = true) :
    splitWordsAux cur (c :: rest) =
      if cur = [] then splitWordsAux [] rest else cur.reverse :: splitWordsAux [] rest := by
  conv_lhs => rw [splitWordsAux]
  rw [if_pos hc]

theorem splitWordsAux_cons_char (cur : List Char) {c : Char} (rest : List Char)
    (hc : jsIsSpace c = false) :
    splitWordsAux cur (c :: rest) = splitWordsAux (c :: cur) rest := by
  conv_lhs => rw [splitWordsAux]
  rw [if_neg (by simp [hc])]

theorem splitWordsAux_spaces (cur u : List Char) (hu : ∀ c ∈ u, jsIsSpace c = true) :
    splitWordsAux cur u = if cur = [] then [] else [cur.reverse] := by
  induction u generalizing cur with
  | nil => rfl
  | cons c rest ih =>
    rw [splitWordsAux_cons_space cur rest (hu c (by simp))]
    have ihe := ih [] (fun d hd => hu d (by simp [hd]))
    rw [if_pos rfl] at ihe
    by_cases hcur : cur = []
    · rw [if_pos hcur, if_pos hcur, ihe]
    · rw [if_neg hcur, if_neg hcur, ihe]

theorem splitWordsAux_append_spaces (t u cur : List Char)
    (hu : ∀ c ∈ u, jsIsSpace c = true) :
    splitWordsAux cur (t ++ u) = splitWordsAux cur t := by
  induction t generalizing cur with
  | nil => rw [List.nil_append, splitWordsAux_spaces cur u hu, splitWordsAux_nil]
  | cons c rest ih =>
    by_cases hc : jsIsSpace c = true
    · rw [List.cons_append, splitWordsAux_cons_space cur _ hc, splitWordsAux_cons_space cur _ hc,
          ih]
    · rw [List.cons_append, splitWordsAux_cons_char cur _ (by simpa using hc),
          splitWordsAux_cons_char cur _ (by simpa using hc), ih]

theorem splitWordsAux_append_space (a b cur : List Char) {m : Char}
    (hm : jsIsSpace m = true) :
    splitWordsAux cur (a ++ m :: b) = splitWordsAux cur a ++ splitWords b := by
  induction a generalizing cur with
  | nil =>
    rw [List.nil_append, splitWordsAux_cons_space cur b hm, splitWordsAux_nil]
    unfold splitWords
    by_cases hcur : cur = []
    · rw [if_pos hcur, if_pos hcur, List.nil_append]
    · rw [if_neg hcur, if_neg hcur, List.singleton_append]
  | cons c rest ih =>
    by_cases hc : jsIsSpace c = true
    · rw [List.cons_append, splitWordsAux_cons_space cur _ hc, splitWordsAux_cons_space cur _ hc]
      by_cases hcur : cur = []
      · rw [if_pos hcur, if_pos hcur, ih]
      · rw [if_neg hcur, if_neg hcur, ih, List.cons_append]
    · rw [List.cons_append, splitWordsAux_cons_char cur _ (by simpa using hc),
          splitWordsAux_cons_char cur _ (by simpa using hc), ih]

theorem splitWords_dropWhile (s : List Char) :
    splitWords (s.dropWhile jsIsSpace) = splitWords s := by
  induction s with
  | nil => rfl
  | cons c rest ih =>
    by_cases hc : jsIsSpace c = true
    · rw [List.dropWhile_cons_of_pos hc, ih]
      unfold splitWords
      rw [splitWordsAux_cons_space [] rest hc, if_pos rfl]
    · rw [List.dropWhile_cons_of_neg (by simp [hc])]

theorem trimStr_decomp (s : List Char) :
    ∃ u, (∀ c ∈ u, jsIsSpace c = true) ∧ s.dropWhile jsIsSpace = trimStr s ++ u := by
  unfold trimStr
  refine ⟨((s.dropWhile jsIsSpace).reverse.takeWhile jsIsSpace).reverse, ?_, ?_⟩
  · intro c hc
    rw [List.mem_reverse] at hc
    exact List.mem_takeWhile_imp hc
  · rw [← List.reverse_append, List.takeWhile_append_dropWhile, List.reverse_reverse]

theorem splitWords_trimStr (s : List Char) : splitWords (trimStr s) = splitWords s := by
  obtain ⟨u, hu, hdecomp⟩ := trimStr_decomp s
  have h1 : splitWords (trimStr s ++ u) = splitWords (trimStr s) :=
    splitWordsAux_append_spaces _ _ _ hu
  rw [← splitWords_dropWhile s, hdecomp, h1]

theorem splitWordsAux_words (s : List Char) :
    ∀ cur, (∀ c ∈ cur, jsIsSpace c = false) →
    ∀ w ∈ splitWordsAux cur s, w ≠ [] ∧ ∀ c ∈ w, jsIsSpace c = false := by
  induction s with
  | nil =>
    intro cur hcur w hw
    rw [splitWordsAux_nil] at hw
    by_cases hc : cur = []
    · rw [if_pos hc] at hw
      simp at hw
    · rw [if_neg hc] at hw
      simp at hw
      subst hw
      exact ⟨by simpa using hc, fun c hc2 => hcur c (by simpa using hc2)⟩
  | cons c rest ih =>
    intro cur hcur w hw
    by_cases hc : jsIsSpace c = true
    · rw [splitWordsAux_cons_space cur rest hc] at hw
      by_cases hcn : cur = []
      · rw [if_pos hcn] at hw
        exact ih [] (by simp) w hw
      · rw [if_neg hcn] at hw
        rcases List.mem_cons.mp hw with h | h
        · subst h
          exact ⟨by simpa using hcn, fun d hd => hcur d (by simpa using hd)⟩
        · exact ih [] (by simp) w h
    · rw [splitWordsAux_cons_char cur rest (by simpa using hc)] at hw
      refine ih (c :: cur) ?_ w hw
      intro d hd
      rcases List.mem_cons.mp hd with h | h
      · subst h
        simpa using hc
      · exact hcur d h

theorem splitWords_words (s : List Char) :
    ∀ w ∈ splitWords s, w ≠ [] ∧ ∀ c ∈ w, jsIsSpace c = false :=
  splitWordsAux_words s [] (by simp)

theorem splitWordsAux_word (w : List Char) (hw : ∀ c ∈ w, jsIsSpace c = false) :
    ∀ s cur, splitWordsAux cur (w ++ s) = splitWordsAux (w.reverse ++ cur) s := by
  induction w with
  | nil => simp
  | cons c rest ih =>
    intro s cur
    rw [List.cons_append, splitWordsAux_cons_char cur _ (hw c (by simp)),
        ih (fun d hd => hw d (by simp [hd])) s (c :: cur)]
    congr 1
    simp

theorem splitWords_single (w : List Char) (hne : w ≠ [])
    (hw : ∀ c ∈ w, jsIsSpace c = false) : splitWords w = [w] := by
  unfold splitWords
  have := splitWordsAux_word w hw [] []
  rw [List.append_nil] at this
  rw [this, splitWordsAux_nil, if_neg (by simpa using hne), List.append_nil,
      List.reverse_reverse]

theorem joinSpace_cons (w : List Char) {ws : List (List Char)} (h : ws ≠ []) :
    joinSpace (w :: ws) = w ++ ' ' :: joinSpace ws := by
  match ws with
  | x :: rest => rfl

theorem splitWords_joinSpace (ws : List (List Char))
    (h : ∀ w ∈ ws, w ≠ [] ∧ ∀ c ∈ w, jsIsSpace c = false) :
    splitWords (joinSpace ws) = ws := by
  induction ws with
  | nil => rfl
  | cons w rest ih =>
    match rest with
    | [] =>
      show splitWords w = [w]
      exact splitWords_single w (h w (by simp)).1 (h w (by simp)).2
    | x :: rest' =>
      rw [joinSpace_cons w (by simp)]
      unfold splitWords
      rw [splitWordsAux_word w (h w (by simp)).2, List.append_nil,
          splitWordsAux_cons_space _ _ (by decide),
          if_neg (by simpa using (h w (by simp)).1), List.reverse_reverse]
      show w :: splitWords (joinSpace (x :: rest')) = _
      rw [ih (fun v hv => h v (by simp [hv]))]

theorem joinSpace_inj {l1 l2 : List (List Char)}
    (h1 : ∀ w ∈ l1, w ≠ [] ∧ ∀ c ∈ w, jsIsSpace c = false)
    (h2 : ∀ w ∈ l2, w ≠ [] ∧ ∀ c ∈ w, jsIsSpace c = false)
    (h : joinSpace l1 = joinSpace l2) : l1 = l2 := by
  rw [← splitWords_joinSpace l1 h1, ← splitWords_joinSpace l2 h2, h]

theorem joinSpace_eq_nil {ws : List (List Char)}
    (h : ∀ w ∈ ws, w ≠ []) (hj : joinSpace ws = []) : ws = [] := by
  match ws with
  | [] => rfl
  | [w] => exact absurd hj (h w (by simp))
  | w :: x :: rest =>
    rw [joinSpace_cons w (by simp)] at hj
    simp at hj

theorem splitWordsAux_ne_nil (s : List Char) :
    ∀ cur, cur ≠ [] → splitWordsAux cur s ≠ [] := by
  induction s with
  | nil =>
    intro cur hcur
    rw [splitWordsAux_nil, if_neg hcur]
    simp
  | cons c rest ih =>
    intro cur hcur
    by_cases hc : jsIsSpace c = true
    · rw [splitWordsAux_cons_space cur rest hc, if_neg hcur]
      simp
    · rw [splitWordsAux_cons_char cur rest (by simpa using hc)]
      exact ih (c :: cur) (by simp)

theorem dropWhile_head_false {p : Char → Bool} {l t : List Char} {c : Char}
    (h : l.dropWhile p = c :: t) : p c = false := by
  induction l with
  | nil => simp at h
  | cons a rest ih =>
    by_cases ha : p a = true
    · rw [List.dropWhile_cons_of_pos ha] at h
      exact ih h
    · rw [List.dropWhile_cons_of_neg (by simp [ha])] at h
      cases h
      simpa using ha

theorem getLast?_dropWhile {p : Char → Bool} (l : List Char)
    (h : l.dropWhile p ≠ []) : (l.dropWhile p).getLast? = l.getLast? := by
  induction l with
  | nil => simp at h
  | cons a rest ih =>
    by_cases ha : p a = true
    · rw [List.dropWhile_cons_of_pos ha] at h ⊢
      rw [ih h]
      have hrest : rest ≠ [] := by
        intro hr
        rw [hr] at h
        simp at h
      match rest with
      | x :: xs => simp [List.getLast?_cons_cons]
    · rw [List.dropWhile_cons_of_neg (by simp [ha])]

theorem trimStr_head_not_space {s t : List Char} {c : Char}
    (h : trimStr s = c :: t) : jsIsSpace c = false := by
  unfold trimStr at h
  have hne : (s.dropWhile jsIsSpace).reverse.dropWhile jsIsSpace ≠ [] := by
    intro he
    rw [he] at h
    simp at h
  have hlast : ((s.dropWhile jsIsSpace).reverse.dropWhile jsIsSpace).getLast? =
      (s.dropWhile jsIsSpace).reverse.getLast? := getLast?_dropWhile _ hne
  rw [List.getLast?_reverse] at hlast
  have hhead : (((s.dropWhile jsIsSpace).reverse.dropWhile jsIsSpace).reverse).head? = some c := by
    rw [h]; rfl
  rw [List.head?_reverse, hlast] at hhead
  match he : s.dropWhile jsIsSpace, hhead with
  | d :: u, hh =>
    rw [he] at hhead
    simp at hhead
    subst hhead
    exact dropWhile_head_false he

theorem trimStr_getLast_not_space {s : List Char} {c : Char}
    (h : (trimStr s).getLast? = some c) : jsIsSpace c = false := by
  unfold trimStr at h
  rw [List.getLast?_reverse] at h
  match he : (s.dropWhile jsIsSpace).reverse.dropWhile jsIsSpace, h with
  | d :: u, hh =>
    rw [he] at h
    simp at h
    subst h
    exact dropWhile_head_false he

theorem splitWords_trim_append (m u : List Char) :
    splitWords (trimStr (m ++ ' ' :: u)) = splitWords (trimStr m) ++ splitWords u := by
  rw [splitWords_trimStr, splitWords_trimStr]
  exact splitWordsAux_append_space m u [] (by decide)

/-! Overlap-search lemmas. -/

theorem findOverlap_zero (mw iw : List (List Char)) : findOverlap mw iw 0 = none := rfl

theorem findOverlap_succ (mw iw : List (List Char)) (i : Nat) :
    findOverlap mw iw (i + 1) =
      if overlapHit mw iw (i + 1) then some (i + 1) else findOverlap mw iw i := rfl

theorem findOverlap_some_ge {mw iw : List (List Char)} {k i : Nat}
    (h : findOverlap mw iw k = some i) : 1 ≤ i ∧ i ≤ k := by
  induction k with
  | zero => simp [findOverlap_zero] at h
  | succ n ih =>
    rw [findOverlap_succ] at h
    by_cases hh : overlapHit mw iw (n + 1)
    · rw [if_pos hh] at h
      cases h
      omega
    · rw [if_neg hh] at h
      have := ih h
      omega

theorem findOverlap_some_hit {mw iw : List (List Char)} {k i : Nat}
    (h : findOverlap mw iw k = some i) : overlapHit mw iw i := by
  induction k with
  | zero => simp [findOverlap_zero] at h
  | succ n ih =>
    rw [findOverlap_succ] at h
    by_cases hh : overlapHit mw iw (n + 1)
    · rw [if_pos hh] at h
      cases h
      exact hh
    · rw [if_neg hh] at h
      exact ih h

theorem findOverlap_some_maximal {mw iw : List (List Char)} {k i : Nat}
    (h : findOverlap mw iw k = some i) :
    ∀ j, i < j → j ≤ k → ¬ overlapHit mw iw j := by
  induction k with
  | zero => simp [findOverlap_zero] at h
  | succ n ih =>
    rw [findOverlap_succ] at h
    by_cases hh : overlapHit mw iw (n + 1)
    · rw [if_pos hh] at h
      cases h
      intro j hj1 hj2
      omega
    · rw [if_neg hh] at h
      intro j hj1 hj2
      rcases Nat.lt_or_ge j (n + 1) with hlt | hge
      · exact ih h j hj1 (by omega)
      · have : j = n + 1 := by omega
        subst this
        exact hh

theorem findOverlap_none_iff (mw iw : List (List Char)) (k : Nat) :
    findOverlap mw iw k = none ↔ ∀ j, 1 ≤ j → j ≤ k → ¬ overlapHit mw iw j := by
  induction k with
  | zero => simp [findOverlap_zero]; omega
  | succ n ih =>
    rw [findOverlap_succ]
    by_cases hh : overlapHit mw iw (n + 1)
    · rw [if_pos hh]
      simp only [reduceCtorEq, false_iff]
      intro hall
      exact hall (n + 1) (by omega) (by omega) hh
    · rw [if_neg hh, ih]
      constructor
      · intro hall j hj1 hj2
        rcases Nat.lt_or_ge j (n + 1) with hlt | hge
        · exact hall j hj1 (by omega)
        · have : j = n + 1 := by omega
          subst this
          exact hh
      · intro hall j hj1 hj2
        exact hall j hj1 (by omega)

theorem findOverlap_eq_some_iff (mw iw : List (List Char)) (k i : Nat) :
    findOverlap mw iw k = some i ↔
      1 ≤ i ∧ i ≤ k ∧ overlapHit mw iw i ∧ ∀ j, i < j → j ≤ k → ¬ overlapHit mw iw j := by
  constructor
  · intro h
    obtain ⟨h1, h2⟩ := findOverlap_some_ge h
    exact ⟨h1, h2, findOverlap_some_hit h, findOverlap_some_maximal h⟩
  · rintro ⟨h1, h2, h3, h4⟩
    induction k with
    | zero => omega
    | succ n ih =>
      rw [findOverlap_succ]
      by_cases hh : overlapHit mw iw (n + 1)
      · rw [if_pos hh]
        by_cases hi : i = n + 1
        · rw [hi]
        · exact absurd hh (h4 (n + 1) (by omega) (by omega))
      · rw [if_neg hh]
        have hi : i ≠ n + 1 := fun he => hh (he ▸ h3)
        exact ih (by omega) (fun j hj1 hj2 => h4 j hj1 (by omega))

theorem findOverlap_window {mw1 mw2 iw : List (List Char)} (k : Nat)
    (h1 : k ≤ mw1.length) (h2 : k ≤ mw2.length)
    (h : mw1.drop (mw1.length - k) = mw2.drop (mw2.length - k)) :
    findOverlap mw1 iw k = findOverlap mw2 iw k := by
  induction k with
  | zero => rfl
  | succ n ih =>
    have hdropj : ∀ j, j ≤ n + 1 → mw1.drop (mw1.length - j) = mw2.drop (mw2.length - j) := by
      intro j hj
      have e1 : mw1.length - j = (mw1.length - (n + 1)) + (n + 1 - j) := by omega
      have e2 : mw2.length - j = (mw2.length - (n + 1)) + (n + 1 - j) := by omega
      rw [e1, e2, ← List.drop_drop, ← List.drop_drop, h]
    rw [findOverlap_succ, findOverlap_succ]
    have hhit : overlapHit mw1 iw (n + 1) ↔ overlapHit mw2 iw (n + 1) := by
      unfold overlapHit
      rw [hdropj (n + 1) (by omega)]
    by_cases hh : overlapHit mw1 iw (n + 1)
    · rw [if_pos hh, if_pos (hhit.mp hh)]
    · rw [if_neg hh, if_neg (fun hc => hh (hhit.mpr hc))]
      exact ih (by omega) (by omega) (hdropj n (by omega))

theorem lowerStr_joinSpace_map (ws : List (List Char)) :
    lowerStr (joinSpace (ws.map lowerStr)) = lowerStr (joinSpace ws) := by
  rw [lowerStr_joinSpace, lowerStr_joinSpace, List.map_map]
  congr 1
  exact List.map_congr_left fun w _ => lowerStr_idem w

theorem overlapHit_lower_master (mw iw : List (List Char)) (i : Nat) :
    overlapHit (mw.map lowerStr) iw i ↔ overlapHit mw iw i := by
  unfold overlapHit
  rw [List.length_map, ← List.map_drop, lowerStr_joinSpace_map]

theorem overlapHit_lower_incoming (mw iw : List (List Char)) (i : Nat) :
    overlapHit mw (iw.map lowerStr) i ↔ overlapHit mw iw i := by
  unfold overlapHit
  rw [← List.map_take, lowerStr_joinSpace_map]

theorem findOverlap_lower_master (mw iw : List (List Char)) (k : Nat) :
    findOverlap (mw.map lowerStr) iw k = findOverlap mw iw k := by
  induction k with
  | zero => rfl
  | succ n ih =>
    rw [findOverlap_succ, findOverlap_succ, ih]
    by_cases hh : overlapHit mw iw (n + 1)
    · rw [if_pos hh, if_pos ((overlapHit_lower_master mw iw (n + 1)).mpr hh)]
    · rw [if_neg hh, if_neg (fun hc => hh ((overlapHit_lower_master mw iw (n + 1)).mp hc))]

theorem findOverlap_lower_incoming (mw iw : List (List Char)) (k : Nat) :
    findOverlap mw (iw.map lowerStr) k = findOverlap mw iw k := by
  induction k with
  | zero => rfl
  | succ n ih =>
    rw [findOverlap_succ, findOverlap_succ, ih]
    by_cases hh : overlapHit mw iw (n + 1)
    · rw [if_pos hh, if_pos ((overlapHit_lower_incoming mw iw (n + 1)).mpr hh)]
    · rw [if_neg hh, if_neg (fun hc => hh ((overlapHit_lower_incoming mw iw (n + 1)).mp hc))]

/-! Branch equations of appendVerbatim. -/

theorem appendVerbatim_eq (m d : List Char) :
    appendVerbatim m d =
      if d = [] then m
      else if trimStr (d.filter isAscii) = [] then m
      else if splitWords (trimStr m) = [] then trimStr (d.filter isAscii)
      else
        match findOverlap (splitWords (trimStr m)) (splitWords (trimStr (d.filter isAscii)))
            (min (min (splitWords (trimStr m)).length
              (splitWords (trimStr (d.filter isAscii))).length) 8) with
        | some i =>
          if joinSpace ((splitWords (trimStr (d.filter isAscii))).drop i) = [] then m
          else trimStr (m ++ ' ' :: joinSpace ((splitWords (trimStr (d.filter isAscii))).drop i))
        | none => trimStr (m ++ ' ' :: trimStr (d.filter isAscii)) := rfl

theorem cleaned_nil_of_nil {d : List Char} (h : d = []) : trimStr (d.filter isAscii) = [] := by
  subst h
  rfl

theorem appendVerbatim_of_cleaned_nil {m d : List Char}
    (h : trimStr (d.filter isAscii) = []) : appendVerbatim m d = m := by
  rw [appendVerbatim_eq]
  by_cases hd : d = []
  · rw [if_pos hd]
  · rw [if_neg hd, if_pos h]

theorem appendVerbatim_of_master_nil {m d : List Char}
    (hc : trimStr (d.filter isAscii) ≠ []) (hm : splitWords (trimStr m) = []) :
    appendVerbatim m d = trimStr (d.filter isAscii) := by
  have hd : d ≠ [] := fun he => hc (cleaned_nil_of_nil he)
  rw [appendVerbatim_eq, if_neg hd, if_neg hc, if_pos hm]

theorem appendVerbatim_of_some {m d : List Char} {i : Nat}
    (hc : trimStr (d.filter isAscii) ≠ []) (hm : splitWords (trimStr m) ≠ [])
    (hfind : findOverlap (splitWords (trimStr m)) (splitWords (trimStr (d.filter isAscii)))
        (min (min (splitWords (trimStr m)).length
          (splitWords (trimStr (d.filter isAscii))).length) 8) = some i) :
    appendVerbatim m d =
      if joinSpace ((splitWords (trimStr (d.filter isAscii))).drop i) = [] then m
      else trimStr (m ++ ' ' :: joinSpace ((splitWords (trimStr (d.filter isAscii))).drop i)) := by
  have hd : d ≠ [] := fun he => hc (cleaned_nil_of_nil he)
  rw [appendVerbatim_eq, if_neg hd, if_neg hc, if_neg hm, hfind]

theorem appendVerbatim_of_none {m d : List Char}
    (hc : trimStr (d.filter isAscii) ≠ []) (hm : splitWords (trimStr m) ≠ [])
    (hfind : findOverlap (splitWords (trimStr m)) (splitWords (trimStr (d.filter isAscii)))
        (min (min (splitWords (trimStr m)).length
          (splitWords (trimStr (d.filter isAscii))).length) 8) = none) :
    appendVerbatim m d = trimStr (m ++ ' ' :: trimStr (d.filter isAscii)) := by
  have hd : d ≠ [] := fun he => hc (cleaned_nil_of_nil he)
  rw [appendVerbatim_eq, if_neg hd, if_neg hc, if_neg hm, hfind]

/-! Append-only invariant. -/

theorem appendVerbatim_words_extend (m d : List Char) :
    ∃ t, splitWords (trimStr (appendVerbatim m d)) = splitWords (trimStr m) ++ t := by
  by_cases hc : trimStr (d.filter isAscii) = []
  · exact ⟨[], by rw [appendVerbatim_of_cleaned_nil hc, List.append_nil]⟩
  by_cases hm : splitWords (trimStr m) = []
  · refine ⟨splitWords (trimStr (d.filter isAscii)), ?_⟩
    rw [appendVerbatim_of_master_nil hc hm, hm, List.nil_append, splitWords_trimStr]
  rcases hfind : findOverlap (splitWords (trimStr m)) (splitWords (trimStr (d.filter isAscii)))
      (min (min (splitWords (trimStr m)).length
        (splitWords (trimStr (d.filter isAscii))).length) 8) with _ | i
  · refine ⟨splitWords (trimStr (d.filter isAscii)), ?_⟩
    rw [appendVerbatim_of_none hc hm hfind, splitWords_trimStr, splitWords_trim_append,
        splitWords_trimStr]
  · rw [appendVerbatim_of_some hc hm hfind]
    by_cases hu : joinSpace ((splitWords (trimStr (d.filter isAscii))).drop i) = []
    · exact ⟨[], by rw [if_pos hu, List.append_nil]⟩
    · refine ⟨splitWords (joinSpace ((splitWords (trimStr (d.filter isAscii))).drop i)), ?_⟩
      rw [if_neg hu, splitWords_trimStr, splitWords_trim_append]

theorem runDeltas_words_extend (m : List Char) (ds : List (List Char)) :
    ∃ t, splitWords (trimStr (ds.foldl appendVerbatim m)) = splitWords (trimStr m) ++ t := by
  induction ds generalizing m with
  | nil => exact ⟨[], by rw [List.foldl_nil, List.append_nil]⟩
  | cons d rest ih =>
    rw [List.foldl_cons]
    obtain ⟨t1, ht1⟩ := appendVerbatim_words_extend m d
    obtain ⟨t2, ht2⟩ := ih (appendVerbatim m d)
    exact ⟨t1 ++ t2, by rw [ht2, ht1, List.append_assoc]⟩

/-! Retransmission of an identical delta. -/

theorem dropWhile_eq_self_of_head {p : Char → Bool} {l : List Char}
    (h : ∀ c, l.head? = some c → p c = false) : l.dropWhile p = l := by
  match l with
  | [] => rfl
  | c :: t => exact List.dropWhile_cons_of_neg (by simp [h c rfl])

theorem trimStr_head?_not_space {s : List Char} {c : Char}
    (h : (trimStr s).head? = some c) : jsIsSpace c = false := by
  match he : trimStr s, h with
  | c' :: t, hh =>
    rw [he] at h
    simp at h
    subst h
    exact trimStr_head_not_space he

theorem trimStr_idem (s : List Char) : trimStr (trimStr s) = trimStr s := by
  show ((trimStr s |>.dropWhile jsIsSpace).reverse.dropWhile jsIsSpace).reverse = trimStr s
  rw [dropWhile_eq_self_of_head (fun c hc => trimStr_head?_not_space hc)]
  rw [dropWhile_eq_self_of_head (fun c hc => ?_), List.reverse_reverse]
  rw [List.head?_reverse] at hc
  exact trimStr_getLast_not_space hc

theorem splitWords_trim_ne_nil {s : List Char} (h : trimStr s ≠ []) :
    splitWords (trimStr s) ≠ [] := by
  match he : trimStr s with
  | [] => exact absurd he h
  | c :: t =>
    have hc : jsIsSpace c = false := trimStr_head_not_space he
    unfold splitWords
    rw [splitWordsAux_cons_char [] t hc]
    exact splitWordsAux_ne_nil t [c] (by simp)

theorem good_map_lower {ws : List (List Char)}
    (h : ∀ w ∈ ws, w ≠ [] ∧ ∀ c ∈ w, jsIsSpace c = false) :
    ∀ w ∈ ws.map lowerStr, w ≠ [] ∧ ∀ c ∈ w, jsIsSpace c = false := by
  intro w hw
  obtain ⟨v, hv, rfl⟩ := List.mem_map.mp hw
  exact ⟨fun he => (h v hv).1 ((lowerStr_eq_nil_iff v).mp he), lowerStr_not_space (h v hv).2⟩

theorem overlapHit_iff_map {mw iw : List (List Char)} (i : Nat)
    (hmw : ∀ w ∈ mw, w ≠ [] ∧ ∀ c ∈ w, jsIsSpace c = false)
    (hiw : ∀ w ∈ iw, w ≠ [] ∧ ∀ c ∈ w, jsIsSpace c = false) :
    overlapHit mw iw i ↔
      (mw.drop (mw.length - i)).map lowerStr = (iw.take i).map lowerStr := by
  unfold overlapHit
  rw [lowerStr_joinSpace, lowerStr_joinSpace]
  constructor
  · intro h
    refine joinSpace_inj ?_ ?_ h
    · exact good_map_lower fun w hw => hmw w (List.mem_of_mem_drop hw)
    · exact good_map_lower fun w hw => hiw w (List.mem_of_mem_take hw)
  · intro h
    rw [h]

theorem appendVerbatim_tail_lower (m d : List Char)
    (hc : trimStr (d.filter isAscii) ≠ []) :
    (splitWords (trimStr (d.filter isAscii))).length ≤
        (splitWords (trimStr (appendVerbatim m d))).length ∧
      ((splitWords (trimStr (appendVerbatim m d))).drop
          ((splitWords (trimStr (appendVerbatim m d))).length -
            (splitWords (trimStr (d.filter isAscii))).length)).map lowerStr =
        (splitWords (trimStr (d.filter isAscii))).map lowerStr := by
  have hiw_good := splitWords_words (trimStr (d.filter isAscii))
  by_cases hm : splitWords (trimStr m) = []
  · rw [appendVerbatim_of_master_nil hc hm, trimStr_idem]
    exact ⟨le_refl _, by rw [Nat.sub_self, List.drop_zero]⟩
  have hmw_good := splitWords_words (trimStr m)
  rcases hfind : findOverlap (splitWords (trimStr m)) (splitWords (trimStr (d.filter isAscii)))
      (min (min (splitWords (trimStr m)).length
        (splitWords (trimStr (d.filter isAscii))).length) 8) with _ | i
  · rw [appendVerbatim_of_none hc hm hfind, trimStr_idem, splitWords_trim_append,
        splitWords_trimStr]
    constructor
    · rw [List.length_append]
      omega
    · rw [List.length_append, Nat.add_sub_cancel, List.drop_left]
  · obtain ⟨hi1, hi2⟩ := findOverlap_some_ge hfind
    have hiM : i ≤ (splitWords (trimStr m)).length := by
      have h1 := Nat.min_le_left (min (splitWords (trimStr m)).length
        (splitWords (trimStr (d.filter isAscii))).length) 8
      have h2 := Nat.min_le_left (splitWords (trimStr m)).length
        (splitWords (trimStr (d.filter isAscii))).length
      omega
    have hiN : i ≤ (splitWords (trimStr (d.filter isAscii))).length := by
      have h1 := Nat.min_le_left (min (splitWords (trimStr m)).length
        (splitWords (trimStr (d.filter isAscii))).length) 8
      have h2 := Nat.min_le_right (splitWords (trimStr m)).length
        (splitWords (trimStr (d.filter isAscii))).length
      omega
    have hhit := findOverlap_some_hit hfind
    rw [overlapHit_iff_map i hmw_good hiw_good] at hhit
    rw [appendVerbatim_of_some hc hm hfind]
    by_cases hu : joinSpace ((splitWords (trimStr (d.filter isAscii))).drop i) = []
    · have hdrop : (splitWords (trimStr (d.filter isAscii))).drop i = [] :=
        joinSpace_eq_nil (fun w hw => (hiw_good w (List.mem_of_mem_drop hw)).1) hu
      have hin : i = (splitWords (trimStr (d.filter isAscii))).length := by
        have := List.drop_eq_nil_iff.mp hdrop
        omega
      rw [if_pos hu]
      rw [hin] at hhit hiM
      rw [List.take_length] at hhit
      exact ⟨hiM, hhit⟩
    · rw [if_neg hu, trimStr_idem, splitWords_trim_append,
          splitWords_joinSpace _ (fun w hw => hiw_good w (List.mem_of_mem_drop hw))]
      constructor
      · rw [List.length_append, List.length_drop]
        omega
      · have hlen2 : ((splitWords (trimStr m)).length +
            ((splitWords (trimStr (d.filter isAscii))).drop i).length) -
              (splitWords (trimStr (d.filter isAscii))).length =
            (splitWords (trimStr m)).length - i := by
          rw [List.length_drop]
          omega
        rw [List.length_append, hlen2,
            List.drop_append_of_le_length (by omega), List.map_append, hhit,
            ← List.map_append, List.take_append_drop]

theorem appendVerbatim_retransmit (m d : List Char)
    (h8 : (splitWords (trimStr (d.filter isAscii))).length ≤ 8) :
    appendVerbatim (appendVerbatim m d) d = appendVerbatim m d := by
  by_cases hc : trimStr (d.filter isAscii) = []
  · rw [appendVerbatim_of_cleaned_nil hc, appendVerbatim_of_cleaned_nil hc]
  obtain ⟨hlen, hmap⟩ := appendVerbatim_tail_lower m d hc
  have hiwne : splitWords (trimStr (d.filter isAscii)) ≠ [] := splitWords_trim_ne_nil hc
  have hn1 : 1 ≤ (splitWords (trimStr (d.filter isAscii))).length :=
    List.length_pos.mpr hiwne
  have hmw'ne : splitWords (trimStr (appendVerbatim m d)) ≠ [] := by
    intro he
    rw [he] at hlen
    simp only [List.length_nil] at hlen
    omega
  have hmax : min (min (splitWords (trimStr (appendVerbatim m d))).length
      (splitWords (trimStr (d.filter isAscii))).length) 8 =
      (splitWords (trimStr (d.filter isAscii))).length := by
    rw [min_eq_right hlen, min_eq_left h8]
  have hhit : overlapHit (splitWords (trimStr (appendVerbatim m d)))
      (splitWords (trimStr (d.filter isAscii)))
      (splitWords (trimStr (d.filter isAscii))).length := by
    rw [overlapHit_iff_map _ (splitWords_words _) (splitWords_words _), List.take_length]
    exact hmap
  obtain ⟨n', hn'⟩ : ∃ n', (splitWords (trimStr (d.filter isAscii))).length = n' + 1 :=
    ⟨(splitWords (trimStr (d.filter isAscii))).length - 1, by omega⟩
  have hfind : findOverlap (splitWords (trimStr (appendVerbatim m d)))
      (splitWords (trimStr (d.filter isAscii)))
      (min (min (splitWords (trimStr (appendVerbatim m d))).length
        (splitWords (trimStr (d.filter isAscii))).length) 8) =
      some (splitWords (trimStr (d.filter isAscii))).length := by
    rw [hmax, hn', findOverlap_succ, if_pos (hn' ▸ hhit)]
  rw [appendVerbatim_of_some hc hmw'ne hfind,
      if_pos (by rw [List.drop_length]; rfl)]

/-! Character membership lemmas for the reachable-transcript invariant. -/

theorem trimStr_mem {s : List Char} {c : Char} (h : c ∈ trimStr s) : c ∈ s := by
  unfold trimStr at h
  rw [List.mem_reverse] at h
  have h1 := (List.dropWhile_sublist jsIsSpace).mem h
  rw [List.mem_reverse] at h1
  exact (List.dropWhile_sublist jsIsSpace).mem h1

theorem mem_joinSpace {ws : List (List Char)} {c : Char} (h : c ∈ joinSpace ws) :
    c = ' ' ∨ ∃ w ∈ ws, c ∈ w := by
  induction ws with
  | nil => simp [joinSpace] at h
  | cons w rest ih =>
    match rest with
    | [] =>
      right
      exact ⟨w, by simp, h⟩
    | x :: rest' =>
      rw [joinSpace_cons w (by simp)] at h
      rcases List.mem_append.mp h with h1 | h1
      · right
        exact ⟨w, by simp, h1⟩
      · rcases List.mem_cons.mp h1 with h2 | h2
        · exact Or.inl h2
        · rcases ih h2 with h3 | ⟨v, hv, hc⟩
          · exact Or.inl h3
          · exact Or.inr ⟨v, by simp [hv], hc⟩

theorem splitWordsAux_mem (s : List Char) :
    ∀ cur w, w ∈ splitWordsAux cur s → ∀ c ∈ w, c ∈ cur ∨ c ∈ s := by
  induction s with
  | nil =>
    intro cur w hw c hc
    rw [splitWordsAux_nil] at hw
    by_cases hcn : cur = []
    · rw [if_pos hcn] at hw
      simp at hw
    · rw [if_neg hcn] at hw
      simp at hw
      subst hw
      exact Or.inl (by simpa using hc)
  | cons a rest ih =>
    intro cur w hw c hc
    by_cases ha : jsIsSpace a = true
    · rw [splitWordsAux_cons_space cur rest ha] at hw
      by_cases hcn : cur = []
      · rw [if_pos hcn] at hw
        rcases ih [] w hw c hc with h | h
        · simp at h
        · exact Or.inr (by simp [h])
      · rw [if_neg hcn] at hw
        rcases List.mem_cons.mp hw with h | h
        · subst h
          exact Or.inl (by simpa using hc)
        · rcases ih [] w h c hc with h2 | h2
          · simp at h2
          · exact Or.inr (by simp [h2])
    · rw [splitWordsAux_cons_char cur rest (by simpa using ha)] at hw
      rcases ih (a :: cur) w hw c hc with h | h
      · rcases List.mem_cons.mp h with h2 | h2
        · exact Or.inr (by simp [h2])
        · exact Or.inl h2
      · exact Or.inr (by simp [h])

theorem splitWords_mem {s w : List Char} (hw : w ∈ splitWords s) {c : Char} (hc : c ∈ w) :
    c ∈ s := by
  rcases splitWordsAux_mem s [] w hw c hc with h | h
  · simp at h
  · exact h

theorem appendVerbatim_good {m : List Char} (d : List Char)
    (hA : ∀ c ∈ m, isAscii c = true)
    (hH : ∀ c, m.head? = some c → jsIsSpace c = false)
    (hL : ∀ c, m.getLast? = some c → jsIsSpace c = false) :
    (∀ c ∈ appendVerbatim m d, isAscii c = true) ∧
      (∀ c, (appendVerbatim m d).head? = some c → jsIsSpace c = false) ∧
      (∀ c, (appendVerbatim m d).getLast? = some c → jsIsSpace c = false) := by
  have hclean : ∀ c ∈ trimStr (d.filter isAscii), isAscii c = true := by
    intro c hc
    exact (List.mem_filter.mp (trimStr_mem hc)).2
  have hunique : ∀ i c, c ∈ joinSpace ((splitWords (trimStr (d.filter isAscii))).drop i) →
      isAscii c = true := by
    intro i c hc
    rcases mem_joinSpace hc with h | ⟨w, hw, hcw⟩
    · subst h
      decide
    · exact hclean c (splitWords_mem (List.mem_of_mem_drop hw) hcw)
  by_cases hc : trimStr (d.filter isAscii) = []
  · rw [appendVerbatim_of_cleaned_nil hc]
    exact ⟨hA, hH, hL⟩
  by_cases hm : splitWords (trimStr m) = []
  · rw [appendVerbatim_of_master_nil hc hm]
    exact ⟨hclean, fun c h => trimStr_head?_not_space h,
      fun c h => trimStr_getLast_not_space h⟩
  rcases hfind : findOverlap (splitWords (trimStr m)) (splitWords (trimStr (d.filter isAscii)))
      (min (min (splitWords (trimStr m)).length
        (splitWords (trimStr (d.filter isAscii))).length) 8) with _ | i
  · rw [appendVerbatim_of_none hc hm hfind]
    refine ⟨?_, fun c h => trimStr_head?_not_space h, fun c h => trimStr_getLast_not_space h⟩
    intro c hcm
    rcases List.mem_append.mp (trimStr_mem hcm) with h | h
    · exact hA c h
    · rcases List.mem_cons.mp h with h2 | h2
      · subst h2
        decide
      · exact hclean c h2
  · rw [appendVerbatim_of_some hc hm hfind]
    by_cases hu : joinSpace ((splitWords (trimStr (d.filter isAscii))).drop i) = []
    · rw [if_pos hu]
      exact ⟨hA, hH, hL⟩
    · rw [if_neg hu]
      refine ⟨?_, fun c h => trimStr_head?_not_space h, fun c h => trimStr_getLast_not_space h⟩
      intro c hcm
      rcases List.mem_append.mp (trimStr_mem hcm) with h | h
      · exact hA c h
      · rcases List.mem_cons.mp h with h2 | h2
        · subst h2
          decide
        · exact hunique i c h2

theorem foldl_appendVerbatim_good (ds : List (List Char)) :
    ∀ m, (∀ c ∈ m, isAscii c = true) →
      (∀ c, m.head? = some c → jsIsSpace c = false) →
      (∀ c, m.getLast? = some c → jsIsSpace c = false) →
      (∀ c ∈ ds.foldl appendVerbatim m, isAscii c = true) ∧
        (∀ c, (ds.foldl appendVerbatim m).head? = some c → jsIsSpace c = false) ∧
        (∀ c, (ds.foldl appendVerbatim m).getLast? = some c → jsIsSpace c = false) := by
  induction ds with
  | nil => exact fun m hA hH hL => ⟨hA, hH, hL⟩
  | cons d rest ih =>
    intro m hA hH hL
    rw [List.foldl_cons]
    obtain ⟨hA2, hH2, hL2⟩ := appendVerbatim_good d hA hH hL
    exact ih (appendVerbatim m d) hA2 hH2 hL2

/-! Claim theorems. -/

/-- C1, counterexample: the claim that delivering an identical delta twice
adds zero new words fails for a delta of 9 distinct words: the bounded
8-word window never compares the full 9-word tail against the full 9-word
head, no shorter comparison matches, and the whole delta is appended
again, doubling the word count from 9 to 18. -/
theorem c1_counterexample :
    runDeltas ["b c d e f g h i j".toList, "b c d e f g h i j".toList] ≠
      runDeltas ["b c d e f g h i j".toList] ∧
    (splitWords (runDeltas ["b c d e f g h i j".toList])).length = 9 ∧
    (splitWords (runDeltas ["b c d e f g h i j".toList,
      "b c d e f g h i j".toList])).length = 18 := by
  decide

/-- C1, amended: onDelta("the quick brown") followed by
onDelta("the quick brown fox") commits exactly the words
["the","quick","brown","fox"]; the delta sequence
["I want to", "want to build", "build an app"] yields the transcript
"I want to build an app"; and delivering an identical delta twice adds
zero new words the second time whenever the delta has at most 8 words
after cleaning (for longer deltas the bounded window can miss the overlap
and duplicate the delta, as the counterexample shows). -/
theorem c1_merge_overlap_append :
    splitWords (runDeltas ["the quick brown".toList, "the quick brown fox".toList]) =
      ["the".toList, "quick".toList, "brown".toList, "fox".toList] ∧
    runDeltas ["I want to".toList, "want to build".toList, "build an app".toList] =
      "I want to build an app".toList ∧
    ∀ master delta : List Char,
      (splitWords (trimStr (delta.filter isAscii))).length ≤ 8 →
      appendVerbatim (appendVerbatim master delta) delta = appendVerbatim master delta :=
  ⟨by decide, by decide, fun m d h8 => appendVerbatim_retransmit m d h8⟩

/-- Witness for C1: the three-word delta "the quick brown" satisfies the
8-word bound, and retransmitting it against the master "hello" leaves the
merged transcript unchanged. -/
theorem c1_merge_overlap_append_witness :
    (splitWords (trimStr ("the quick brown".toList.filter isAscii))).length ≤ 8 ∧
    appendVerbatim (appendVerbatim "hello".toList "the quick brown".toList)
        "the quick brown".toList =
      appendVerbatim "hello".toList "the quick brown".toList :=
  ⟨by decide, c1_merge_overlap_append.2.2 "hello".toList "the quick brown".toList (by decide)⟩

/-- C2, counterexample: an overlap longer than 8 words is not "partially
detected": with a 9-word committed text and a delta sharing all 9 leading
words, the window compares at most the last 8 master words against the
first 8 incoming words, no candidate length from 8 down to 1 matches, the
search returns none, and the entire delta (including all 9 overlapping
words) is appended again. -/
theorem c2_counterexample :
    appendVerbatim "b c d e f g h i j".toList "b c d e f g h i j k".toList =
      "b c d e f g h i j b c d e f g h i j k".toList ∧
    findOverlap (splitWords "b c d e f g h i j".toList)
      (splitWords "b c d e f g h i j k".toList) 8 = none := by
  decide

/-- C2, amended: the overlap search runs on a fuel of at most 8, so any
detected overlap length lies between 1 and 8; its outcome depends only on
the last 8 committed words (two masters with at least 8 words and equal
last-8-word windows give identical search results); the scan goes from
the fuel down to 1 and returns exactly the longest candidate length that
matches, every longer candidate within the fuel failing; and matching is
case-insensitive, lowercasing either side leaving the result unchanged.
An overlap longer than 8 words is in general not detected at all (see the
counterexample), in which case the entire delta is appended. -/
theorem c2_window_bounded_lowercase :
    (∀ mw iw : List (List Char), ∀ i,
        findOverlap mw iw (min (min mw.length iw.length) 8) = some i → 1 ≤ i ∧ i ≤ 8) ∧
    (∀ mw1 mw2 iw : List (List Char), 8 ≤ mw1.length → 8 ≤ mw2.length →
        mw1.drop (mw1.length - 8) = mw2.drop (mw2.length - 8) →
        findOverlap mw1 iw (min (min mw1.length iw.length) 8) =
          findOverlap mw2 iw (min (min mw2.length iw.length) 8)) ∧
    (∀ mw iw : List (List Char), ∀ k i,
        findOverlap mw iw k = some i ↔
          1 ≤ i ∧ i ≤ k ∧ overlapHit mw iw i ∧ ∀ j, i < j → j ≤ k → ¬ overlapHit mw iw j) ∧
    (∀ mw iw : List (List Char), ∀ k,
        findOverlap (mw.map lowerStr) iw k = findOverlap mw iw k ∧
          findOverlap mw (iw.map lowerStr) k = findOverlap mw iw k) := by
  refine ⟨?_, ?_, ?_, ?_⟩
  · intro mw iw i h
    obtain ⟨h1, h2⟩ := findOverlap_some_ge h
    have h3 := Nat.min_le_right (min mw.length iw.length) 8
    exact ⟨h1, by omega⟩
  · intro mw1 mw2 iw h1 h2 hdrop
    have hk1 : min (min mw1.length iw.length) 8 = min iw.length 8 := by omega
    have hk2 : min (min mw2.length iw.length) 8 = min iw.length 8 := by omega
    rw [hk1, hk2]
    apply findOverlap_window (min iw.length 8) (by omega) (by omega)
    have e1 : mw1.length - min iw.length 8 = (mw1.length - 8) + (8 - min iw.length 8) := by
      omega
    have e2 : mw2.length - min iw.length 8 = (mw2.length - 8) + (8 - min iw.length 8) := by
      omega
    rw [e1, e2, ← List.drop_drop, ← List.drop_drop, hdrop]
  · intro mw iw k i
    exact findOverlap_eq_some_iff mw iw k i
  · intro mw iw k
    exact ⟨findOverlap_lower_master mw iw k, findOverlap_lower_incoming mw iw k⟩

/-- Witness for C2: on the one-word lists [["hi"]] the search at the fuel
used by appendVerbatim returns length 1, which the bound part of the
theorem places between 1 and 8. -/
theorem c2_window_bounded_lowercase_witness :
    findOverlap [['h', 'i']] [['h', 'i']] (min (min 1 1) 8) = some 1 ∧
    (1 : Nat) ≤ 1 ∧ (1 : Nat) ≤ 8 :=
  ⟨by decide, c2_window_bounded_lowercase.1 [['h', 'i']] [['h', 'i']] 1 (by decide)⟩

/-- C3: for every starting transcript and every sequence of onDelta
calls folded through appendVerbatim, the committed word count is
non-decreasing and the old committed word sequence stays a prefix of the
new one: words are appended, never edited or removed. -/
theorem c3_append_only :
    ∀ (master : List Char) (deltas : List (List Char)),
      (splitWords (trimStr master)).length ≤
          (splitWords (trimStr (deltas.foldl appendVerbatim master))).length ∧
        splitWords (trimStr master) <+:
          splitWords (trimStr (deltas.foldl appendVerbatim master)) := by
  intro m ds
  obtain ⟨t, ht⟩ := runDeltas_words_extend m ds
  rw [ht]
  exact ⟨by simp, ⟨t, rfl⟩⟩

/-- C4: when the cleaned incoming delta is non-empty, the committed text
has words, and the bounded window search finds no overlap, the merge
appends every incoming word after the committed words (never drops the
delta); concretely, onDelta("hello world") then
onDelta("completely different") commits
["hello","world","completely","different"]. -/
theorem c4_no_overlap_append :
    (∀ master delta : List Char,
      trimStr (delta.filter isAscii) ≠ [] →
      splitWords (trimStr master) ≠ [] →
      findOverlap (splitWords (trimStr master)) (splitWords (trimStr (delta.filter isAscii)))
        (min (min (splitWords (trimStr master)).length
          (splitWords (trimStr (delta.filter isAscii))).length) 8) = none →
      splitWords (trimStr (appendVerbatim master delta)) =
        splitWords (trimStr master) ++ splitWords (trimStr (delta.filter isAscii))) ∧
    splitWords (runDeltas ["hello world".toList, "completely different".toList]) =
      ["hello".toList, "world".toList, "completely".toList, "different".toList] := by
  constructor
  · intro m d hc hm hfind
    rw [appendVerbatim_of_none hc hm hfind, trimStr_idem, splitWords_trim_append]
  · decide

/-- Witness for C4: the generic no-overlap branch evaluated at the
committed text "hello world" and the delta "completely different". -/
theorem c4_no_overlap_append_witness :
    trimStr ("completely different".toList.filter isAscii) ≠ [] ∧
    splitWords (trimStr "hello world".toList) ≠ [] ∧
    splitWords (trimStr (appendVerbatim "hello world".toList "completely different".toList)) =
      splitWords (trimStr "hello world".toList) ++
        splitWords (trimStr ("completely different".toList.filter isAscii)) :=
  ⟨by decide, by decide,
    c4_no_overlap_append.1 "hello world".toList "completely different".toList
      (by decide) (by decide) (by decide)⟩

/-- C5: whenever the committed (master) transcript is non-empty after
trimming, saveToHistory — and hence the stop path that calls it — appends
exactly one snippet holding the trimmed transcript to the history and
clears the committed buffer and the live text. -/
theorem c5_stop_flush :
    ∀ s : AppState, trimStr s.buffer ≠ [] →
      (saveToHistory s).history = s.history ++ [trimStr s.buffer] ∧
      (saveToHistory s).buffer = [] ∧
      (saveToHistory s).currentText = [] ∧
      (stopSession s).history = s.history ++ [trimStr s.buffer] ∧
      (stopSession s).buffer = [] := by
  intro s h
  have hlen : (trimStr s.buffer).length > 0 := List.length_pos.mpr h
  unfold stopSession saveToHistory
  rw [if_pos hlen]
  exact ⟨rfl, rfl, rfl, rfl, rfl⟩

/-- Witness for C5: stopping with the committed text "hello world" emits
the single snippet "hello world" and empties the buffer. -/
theorem c5_stop_flush_witness :
    trimStr "hello world".toList ≠ [] ∧
    (saveToHistory (AppState.mk "hello world".toList "hello world".toList []
        true Status.listening)).history = [trimStr "hello world".toList] ∧
    (saveToHistory (AppState.mk "hello world".toList "hello world".toList []
        true Status.listening)).buffer = [] :=
  ⟨by decide, (c5_stop_flush _ (by decide)).1, (c5_stop_flush _ (by decide)).2.1⟩

/-- C6, counterexample: after a mid-stream error with pending text
"hello world", the onerror handler ends with status idle, not error: it
sets the error status but then runs stopSession, whose final state update
overwrites the status with idle (the flush itself does happen, as the
history shows). -/
theorem c6_counterexample :
    (onerrorHandler (AppState.mk "hello world".toList "hello world".toList []
        true Status.listening)).status ≠ Status.error ∧
    (onerrorHandler (AppState.mk "hello world".toList "hello world".toList []
        true Status.listening)).status = Status.idle ∧
    (onerrorHandler (AppState.mk "hello world".toList "hello world".toList []
        true Status.listening)).history = ["hello world".toList] := by
  decide

/-- C6, amended: on a mid-stream Error event the handler records the
Error status and then runs the stop path, which flushes the pending
transcript with onStop semantics — a snippet is emitted exactly when the
trimmed pending text is non-empty, so partial work is never silently
discarded — but that stop path then sets the status to idle, overwriting
the error status, so the session ends in the Idle status rather than
Error. -/
theorem c6_error_flush :
    ∀ s : AppState,
      (trimStr s.buffer ≠ [] →
        (onerrorHandler s).history = s.history ++ [trimStr s.buffer]) ∧
      (trimStr s.buffer = [] → (onerrorHandler s).history = s.history) ∧
      (onerrorHandler s).buffer = [] ∧
      (onerrorHandler s).status = Status.idle := by
  intro s
  unfold onerrorHandler stopSession saveToHistory
  by_cases h : trimStr s.buffer = []
  · rw [h]
    simp
  · have hlen : (trimStr s.buffer).length > 0 := List.length_pos.mpr h
    rw [if_pos hlen]
    exact ⟨fun _ => rfl, fun he => absurd he h, rfl, rfl⟩

/-- Witness for C6: the error path at pending text "idea one" emits the
snippet "idea one". -/
theorem c6_error_flush_witness :
    trimStr "idea one".toList ≠ [] ∧
    (onerrorHandler (AppState.mk "idea one".toList "idea one".toList []
        true Status.listening)).history = [trimStr "idea one".toList] :=
  ⟨by decide, (c6_error_flush _).1 (by decide)⟩

/-- C7: in the per-turn-snippet variant (part_000), a turn-complete
signal arriving while the accumulated turn text is non-empty after
trimming immediately appends one snippet holding that trimmed text to the
history and clears the turn buffer and live text for the next turn. -/
theorem c7_turn_complete_snippet :
    ∀ s : AppState, trimStr s.buffer ≠ [] →
      (turnCompleteHandler s).history = s.history ++ [trimStr s.buffer] ∧
      (turnCompleteHandler s).buffer = [] ∧
      (turnCompleteHandler s).currentText = [] := by
  intro s h
  unfold turnCompleteHandler
  rw [if_neg h]
  exact ⟨rfl, rfl, rfl⟩

/-- Witness for C7: turn completion with the turn text "buy milk" emits
the snippet "buy milk" and clears the buffer. -/
theorem c7_turn_complete_snippet_witness :
    trimStr "buy milk".toList ≠ [] ∧
    (turnCompleteHandler (AppState.mk "buy milk".toList "buy milk".toList []
        true Status.listening)).history = [trimStr "buy milk".toList] ∧
    (turnCompleteHandler (AppState.mk "buy milk".toList "buy milk".toList []
        true Status.listening)).buffer = [] :=
  ⟨by decide, (c7_turn_complete_snippet _ (by decide)).1,
    (c7_turn_complete_snippet _ (by decide)).2.1⟩

/-- C8: finalizeTurn (floor greater than 2) and saveSnippet (floor
greater than 3) always leave the live transcription buffer and the live
text empty, and when the trimmed text is at or below the variant floor
the history is unchanged: the text is discarded without any snippet being
emitted. -/
theorem c8_floor_discard_clears :
    ∀ s : AppState,
      (finalizeTurn s).buffer = [] ∧
      (saveSnippet s).buffer = [] ∧
      (finalizeTurn s).currentText = [] ∧
      (saveSnippet s).currentText = [] ∧
      ((trimStr s.buffer).length ≤ 2 → (finalizeTurn s).history = s.history) ∧
      ((trimStr s.buffer).length ≤ 3 → (saveSnippet s).history = s.history) := by
  intro s
  unfold finalizeTurn saveSnippet
  refine ⟨?_, ?_, ?_, ?_, ?_, ?_⟩
  · by_cases h : (trimStr s.buffer).length > 2
    · rw [if_pos h]
    · rw [if_neg h]
  · by_cases h : (trimStr s.buffer).length > 3
    · rw [if_pos h]
    · rw [if_neg h]
  · by_cases h : (trimStr s.buffer).length > 2
    · rw [if_pos h]
    · rw [if_neg h]
  · by_cases h : (trimStr s.buffer).length > 3
    · rw [if_pos h]
    · rw [if_neg h]
  · intro h
    rw [if_neg (by omega)]
  · intro h
    rw [if_neg (by omega)]

/-- Witness for C8: the 2-character text "hi" is discarded (no snippet)
by finalizeTurn and the 3-character text "abc" by saveSnippet, with the
buffer left empty in both cases. -/
theorem c8_floor_discard_clears_witness :
    trimStr "hi".toList ≠ [] ∧ (trimStr "hi".toList).length = 2 ∧
    (finalizeTurn (AppState.mk "hi".toList "hi".toList [] true Status.listening)).history = [] ∧
    (finalizeTurn (AppState.mk "hi".toList "hi".toList [] true Status.listening)).buffer = [] ∧
    trimStr "abc".toList ≠ [] ∧ (trimStr "abc".toList).length = 3 ∧
    (saveSnippet (AppState.mk "abc".toList "abc".toList [] true Status.listening)).history = [] ∧
    (saveSnippet (AppState.mk "abc".toList "abc".toList [] true Status.listening)).buffer = [] :=
  ⟨by decide, by decide,
    (c8_floor_discard_clears _).2.2.2.2.1 (by decide),
    (c8_floor_discard_clears (AppState.mk "hi".toList "hi".toList [] true Status.listening)).1,
    by decide, by decide,
    (c8_floor_discard_clears _).2.2.2.2.2 (by decide),
    (c8_floor_discard_clears (AppState.mk "abc".toList "abc".toList [] true Status.listening)).2.1⟩

/-- C9: every transcript reachable from the empty string by folding
appendVerbatim over arbitrary deltas contains only ASCII characters
(codes 0 to 127) and has no leading and no trailing whitespace
character. -/
theorem c9_reachable_ascii_trimmed :
    ∀ deltas : List (List Char),
      (∀ c ∈ runDeltas deltas, isAscii c = true) ∧
      (∀ c, (runDeltas deltas).head? = some c → jsIsSpace c = false) ∧
      (∀ c, (runDeltas deltas).getLast? = some c → jsIsSpace c = false) := by
  intro ds
  unfold runDeltas
  exact foldl_appendVerbatim_good ds []
    (fun c hc => absurd hc (List.not_mem_nil c))
    (fun c hc => by simp at hc)
    (fun c hc => by simp at hc)

/-- Witness for C9: the transcript reached from the single delta
"  Hi there " starts with the non-space character H, ends with the
non-space character e, and contains only ASCII characters (checked at
H). -/
theorem c9_reachable_ascii_trimmed_witness :
    ((runDeltas ["  Hi there ".toList]).head? = some 'H' ∧ jsIsSpace 'H' = false) ∧
    ((runDeltas ["  Hi there ".toList]).getLast? = some 'e' ∧ jsIsSpace 'e' = false) ∧
    ('H' ∈ runDeltas ["  Hi there ".toList] ∧ isAscii 'H' = true) :=
  ⟨⟨by decide, (c9_reachable_ascii_trimmed ["  Hi there ".toList]).2.1 'H' (by decide)⟩,
   ⟨by decide, (c9_reachable_ascii_trimmed ["  Hi there ".toList]).2.2 'e' (by decide)⟩,
   ⟨by decide, (c9_reachable_ascii_trimmed ["  Hi there ".toList]).1 'H' (by decide)⟩⟩

/-- C10: SILENCE_THRESHOLD is exactly 8/1000, and in the loudness-gated
variant a frame with an active session is forwarded exactly when the
square root of its mean squared sample value strictly exceeds the
threshold; in particular a frame whose root-mean-square equals the
threshold exactly is not forwarded, and no frame is forwarded without an
active session. -/
theorem c10_loudness_gate :
    SILENCE_THRESHOLD = 8 / 1000 ∧
    ∀ frame : List ℚ,
      (forwardsFrame true frame = true ↔
        ((SILENCE_THRESHOLD : ℚ) : ℝ) < Real.sqrt ((rmsSq frame : ℚ) : ℝ)) ∧
      (Real.sqrt ((rmsSq frame : ℚ) : ℝ) = ((SILENCE_THRESHOLD : ℚ) : ℝ) →
        forwardsFrame true frame = false) ∧
      forwardsFrame false frame = false := by
  constructor
  · norm_num [SILENCE_THRESHOLD]
  intro frame
  have hθ : (0 : ℝ) ≤ ((SILENCE_THRESHOLD : ℚ) : ℝ) := by
    norm_num [SILENCE_THRESHOLD]
  have hiff : forwardsFrame true frame = true ↔
      ((SILENCE_THRESHOLD : ℚ) : ℝ) < Real.sqrt ((rmsSq frame : ℚ) : ℝ) := by
    rw [Real.lt_sqrt hθ]
    unfold forwardsFrame
    rw [Bool.true_and, decide_eq_true_eq]
    constructor
    · intro h
      have : ((SILENCE_THRESHOLD ^ 2 : ℚ) : ℝ) < ((rmsSq frame : ℚ) : ℝ) := by
        exact_mod_cast h
      calc ((SILENCE_THRESHOLD : ℚ) : ℝ) ^ 2 = ((SILENCE_THRESHOLD ^ 2 : ℚ) : ℝ) := by
            push_cast
            ring
        _ < _ := this
    · intro h
      have h2 : ((SILENCE_THRESHOLD ^ 2 : ℚ) : ℝ) < ((rmsSq frame : ℚ) : ℝ) := by
        calc ((SILENCE_THRESHOLD ^ 2 : ℚ) : ℝ) = ((SILENCE_THRESHOLD : ℚ) : ℝ) ^ 2 := by
              push_cast
              ring
          _ < _ := h
      exact_mod_cast h2
  refine ⟨hiff, ?_, rfl⟩
  intro heq
  cases hb : forwardsFrame true frame
  · rfl
  · have := hiff.mp hb
    rw [heq] at this
    exact absurd this (lt_irrefl _)

/-- Witness for C10: the one-sample frame [0.008] has root-mean-square
exactly equal to the threshold and is not forwarded. -/
theorem c10_loudness_gate_witness :
    Real.sqrt ((rmsSq [(0.008 : ℚ)] : ℚ) : ℝ) = ((SILENCE_THRESHOLD : ℚ) : ℝ) ∧
    forwardsFrame true [(0.008 : ℚ)] = false := by
  have hs : Real.sqrt ((rmsSq [(0.008 : ℚ)] : ℚ) : ℝ) = ((SILENCE_THRESHOLD : ℚ) : ℝ) := by
    have h1 : ((rmsSq [(0.008 : ℚ)] : ℚ) : ℝ) = ((SILENCE_THRESHOLD : ℚ) : ℝ) ^ 2 := by
      norm_num [rmsSq, SILENCE_THRESHOLD]
    rw [h1, Real.sqrt_sq (by norm_num [SILENCE_THRESHOLD])]
  exact ⟨hs, ((c10_loudness_gate.2 [(0.008 : ℚ)]).2.1 hs)⟩

end VoiceTranscriber
